import Mathlib

/-!
Verification of the Clashes-Detector core: a shallow embedding of
`lib/time-parser.ts`, `lib/clash-detector.ts` and the session construction of
`lib/timetable-extractor.ts`, together with proofs of the specified
properties of `parseTimeSlot`, `doTimeSlotsOverlap`, `detectClashes`,
`filterValidSessions` and `findOptimalSchedule`.
-/

namespace ClashesDetector

/-! ## Time parsing (`lib/time-parser.ts`) -/

/-- JavaScript `\d`: an ASCII digit. -/
def isDigitChar (c : Char) : Bool :=
  48 ≤ c.toNat ∧ c.toNat ≤ 57

/-- Numeric value of an ASCII digit character. -/
def digitVal (c : Char) : Nat := c.toNat - 48

/-- Left-to-right, non-overlapping matching of the token regex
`(\d{1,2}):(\d{2})` used by `parseTimeSlot`, returning the list of
(hour, minute) captures.  The two-digit-hour alternative is tried first
(the `{1,2}` quantifier is greedy); on failure at a position the scan
advances one character, exactly as `String.prototype.matchAll` does. -/
def scanTimes : List Char → List (Nat × Nat)
  | a :: b :: c :: d :: e :: rest =>
    if isDigitChar a ∧ isDigitChar b ∧ c = ':' ∧ isDigitChar d ∧ isDigitChar e then
      (10 * digitVal a + digitVal b, 10 * digitVal d + digitVal e) :: scanTimes rest
    else if isDigitChar a ∧ b = ':' ∧ isDigitChar c ∧ isDigitChar d then
      (digitVal a, 10 * digitVal c + digitVal d) :: scanTimes (e :: rest)
    else
      scanTimes (b :: c :: d :: e :: rest)
  | [a, b, c, d] =>
    if isDigitChar a ∧ b = ':' ∧ isDigitChar c ∧ isDigitChar d then
      [(digitVal a, 10 * digitVal c + digitVal d)]
    else []
  | _ => []

/-- JavaScript `\w` for the purposes of `\b`: letter, digit or underscore. -/
def isWordChar (c : Char) : Bool :=
  ('a' ≤ c ∧ c ≤ 'z') ∨ ('A' ≤ c ∧ c ≤ 'Z') ∨ ('0' ≤ c ∧ c ≤ '9') ∨ c = '_'

/-- Whether a word boundary follows, i.e. the next character (if any) is not a
word character. -/
def boundaryAfter : List Char → Bool
  | [] => true
  | c :: _ => ¬ isWordChar c

/-- Matching of the marker regex `\b(am|pm|AM|PM)\b` with flags `gi`:
each match is recorded as `true` for a PM marker and `false` for an AM
marker.  `prev` records whether the character before the current position is
a word character (for the leading `\b`). -/
def scanAmpm (prev : Bool) : List Char → List Bool
  | [] => []
  | [_] => []
  | a :: b :: rest =>
    if (¬ prev) ∧ (a = 'a' ∨ a = 'A' ∨ a = 'p' ∨ a = 'P') ∧ (b = 'm' ∨ b = 'M') ∧
        boundaryAfter rest then
      (a = 'p' ∨ a = 'P') :: scanAmpm true rest
    else
      scanAmpm (isWordChar a) (b :: rest)

/-- All AM/PM markers of a string, in order (`true` = PM). -/
def ampmMarkers (s : String) : List Bool := scanAmpm false s.data

/-- The institutional heuristic applied when no AM/PM marker is present:
hours 8–11 are morning, 12 is noon, 1–7 are afternoon/evening. -/
def heuristicHour (hour : Nat) : Nat :=
  if 8 ≤ hour ∧ hour ≤ 11 then hour
  else if hour = 12 then 12
  else if 1 ≤ hour ∧ hour ≤ 7 then hour + 12
  else hour

/-- The inner `parseTime` of `parseTimeSlot`: converts one (hour, minute)
token to minutes since midnight, using the marker matching the token's
position when markers exist (clamped to the last marker), and the
institutional heuristic otherwise. -/
def parseTime (hm : Nat × Nat) (s : String) (matchIndex : Nat) : Nat :=
  let hour := hm.1
  let minute := hm.2
  let ampm := ampmMarkers s
  let hour24 :=
    if ampm.length > 0 then
      let isPM := ampm.getD (min matchIndex (ampm.length - 1)) false
      if isPM ∧ hour ≠ 12 then hour + 12
      else if (¬ isPM) ∧ hour = 12 then 0
      else hour
    else heuristicHour hour
  hour24 * 60 + minute

/-- Result of `parseTimeSlot` (`end` is a Lean keyword, so the field is
named `stop`). -/
structure TimePair where
  start : Nat
  stop : Nat
  deriving DecidableEq, Repr

/-- `parseTimeSlot`: falsy or literal-"Unknown" input and token-free input
yield the sentinel pair (9999, 9999); otherwise the first token gives the
start, and the second token (or start + 50 when there is only one) gives the
end. -/
def parseTimeSlot (timeSlot : String) : TimePair :=
  if timeSlot = "" ∨ timeSlot = "Unknown" then ⟨9999, 9999⟩
  else
    match scanTimes timeSlot.data with
    | [] => ⟨9999, 9999⟩
    | first :: rest =>
      let startMinutes := parseTime first timeSlot 0
      let endMinutes :=
        match rest with
        | [] => startMinutes + 50
        | second :: _ => parseTime second timeSlot 1
      ⟨startMinutes, endMinutes⟩

/-- `doTimeSlotsOverlap`: unknown times never conflict; otherwise half-open
interval overlap. -/
def doTimeSlotsOverlap (slot1 slot2 : String) : Bool :=
  let time1 := parseTimeSlot slot1
  let time2 := parseTimeSlot slot2
  if time1.start = 9999 ∨ time2.start = 9999 then false
  else ¬ (time1.stop ≤ time2.start ∨ time2.stop ≤ time1.start)

/-! ## Data model (`lib/types.ts`) -/

/-- The `sessionType` field of a session: `'Class' | 'Lab'`. -/
inductive SessionType where
  | Class
  | Lab
  deriving DecidableEq, Repr

/-- A `TimetableSession` record.  The TypeScript field `section` is a Lean
keyword and is named `sect` here. -/
structure TimetableSession where
  id : String
  day : String
  timeSlot : String
  room : String
  sessionType : SessionType
  courseName : String
  sect : String
  batch : String
  department : String
  rank : Nat
  colorCode : String
  startMinutes : Nat
  endMinutes : Nat
  deriving DecidableEq, Repr

/-- A `Clash` record. -/
structure Clash where
  course1 : String
  course2 : String
  day : String
  timeSlot1 : String
  timeSlot2 : String
  section1 : String
  section2 : String
  deriving DecidableEq, Repr

/-- An `OptimalScheduleResult` record; the `assignments` object is an
insertion-ordered association list. -/
structure OptimalScheduleResult where
  success : Bool
  schedule : List TimetableSession
  assignments : List (String × String)
  clashes : List Clash
  message : String
  deriving DecidableEq, Repr

/-! ## Clash detection (`lib/clash-detector.ts`) -/

/-- `doSessionsOverlap`: pre-computed minutes are used when both are known,
otherwise the string slots are re-parsed and compared. -/
def doSessionsOverlap (session1 session2 : TimetableSession) : Bool :=
  if session1.startMinutes ≠ 9999 ∧ session2.startMinutes ≠ 9999 then
    ¬ (session1.endMinutes ≤ session2.startMinutes ∨
       session2.endMinutes ≤ session1.startMinutes)
  else
    doTimeSlotsOverlap session1.timeSlot session2.timeSlot

/-- The `[course1, course2, day].sort()` of the clash key: the three strings
in ascending lexicographic order. -/
def sort3 (a b c : String) : List String :=
  List.insertionSort (· ≤ ·) [a, b, c]

/-- The order-independent dedup key `[course1, course2, day].sort().join('_')`. -/
def clashKey (session1 session2 : TimetableSession) : String :=
  String.intercalate "_" (sort3 session1.courseName session2.courseName session1.day)

/-- The `Clash` object pushed for an overlapping pair. -/
def mkClash (session1 session2 : TimetableSession) : Clash :=
  { course1 := session1.courseName
    course2 := session2.courseName
    day := session1.day
    timeSlot1 := session1.timeSlot
    timeSlot2 := session2.timeSlot
    section1 := session1.sect
    section2 := session2.sect }

/-- The condition under which the pair (session1, session2) reaches the
dedup test of `detectClashes`: different courses, equal days, overlap. -/
def clashCond (session1 session2 : TimetableSession) : Bool :=
  decide (session1.courseName ≠ session2.courseName ∧ session1.day = session2.day ∧
    doSessionsOverlap session1 session2 = true)

/-- Inner loop of `detectClashes`: pairs `session1` with each later session,
threading the seen-key set and the output accumulator. -/
def detectClashesInner (session1 : TimetableSession) :
    List TimetableSession → List String → List Clash → List String × List Clash
  | [], seen, acc => (seen, acc)
  | session2 :: rest, seen, acc =>
    if clashCond session1 session2 then
      let key := clashKey session1 session2
      if key ∈ seen then detectClashesInner session1 rest seen acc
      else detectClashesInner session1 rest (key :: seen) (acc ++ [mkClash session1 session2])
    else detectClashesInner session1 rest seen acc

/-- Outer loop of `detectClashes`. -/
def detectClashesOuter : List TimetableSession → List String → List Clash → List Clash
  | [], _, acc => acc
  | session1 :: rest, seen, acc =>
    let p := detectClashesInner session1 rest seen acc
    detectClashesOuter rest p.1 p.2

/-- `detectClashes`: quadratic pairwise scan with same-course skipping and
order-independent (courseA, courseB, day) dedup. -/
def detectClashes (sessions : List TimetableSession) : List Clash :=
  detectClashesOuter sessions [] []

/-! ## Session normalization (`filterValidSessions`) -/

/-- `EXPECTED_LABS_PER_WEEK`. -/
def EXPECTED_LABS_PER_WEEK : Nat := 1

/-- `EXPECTED_CLASSES_PER_WEEK`. -/
def EXPECTED_CLASSES_PER_WEEK : Nat := 2

/-- The string form of a `sessionType` (as interpolated into dedup keys). -/
def sessionTypeStr : SessionType → String
  | .Class => "Class"
  | .Lab => "Lab"

/-- ASCII lowercasing, for `toLowerCase()` on the course names occurring
here. -/
def lowerString (s : String) : String := ⟨s.data.map Char.toLower⟩

/-- `String.prototype.includes`: whether `pat` occurs as a contiguous
subsequence of `l`. -/
def containsSeq (pat : List Char) : List Char → Bool
  | [] => pat.isEmpty
  | c :: rest => pat.isPrefixOf (c :: rest) || containsSeq pat rest

/-- `courseName.toLowerCase().includes('lab')`. -/
def includesLab (courseName : String) : Bool :=
  containsSeq "lab".data (lowerString courseName).data

/-- The `${session.day}_${session.sessionType}` dedup key of
`removeDuplicateDays`. -/
def dayTypeKey (s : TimetableSession) : String :=
  s.day ++ "_" ++ sessionTypeStr s.sessionType

/-- `removeDuplicateDays` filter with the mutable seen-set threaded. -/
def removeDupAux (seenDays : List String) : List TimetableSession → List TimetableSession
  | [] => []
  | s :: rest =>
    if dayTypeKey s ∈ seenDays then removeDupAux seenDays rest
    else s :: removeDupAux (dayTypeKey s :: seenDays) rest

/-- `removeDuplicateDays`: drop all but the first session per (day,
sessionType) key. -/
def removeDuplicateDays (sessions : List TimetableSession) : List TimetableSession :=
  removeDupAux [] sessions

/-- One step of building an insertion-ordered `{ [key: string]: T[] }`
grouping object: append the session to its key's bucket, creating the bucket
at the end on first occurrence. -/
def insertGrouped (key : TimetableSession → String) :
    List (String × List TimetableSession) → TimetableSession →
    List (String × List TimetableSession)
  | [], s => [(key s, [s])]
  | (n, g) :: rest, s =>
    if n = key s then (n, g ++ [s]) :: rest
    else (n, g) :: insertGrouped key rest s

/-- Grouping of sessions by a string key, preserving JavaScript object
insertion order. -/
def groupSessionsBy (key : TimetableSession → String) (sessions : List TimetableSession) :
    List (String × List TimetableSession) :=
  sessions.foldl (insertGrouped key) []

/-- The per-course body of `filterValidSessions`: partition into lab and
class sessions, drop same-day repeats, then cap at the expected weekly
counts. -/
def keepForCourse (courseName : String) (courseSessions : List TimetableSession) :
    List TimetableSession :=
  let isLabCourse := includesLab courseName
  let labSessions := courseSessions.filter (fun s => decide (s.sessionType = SessionType.Lab))
  let classSessions := courseSessions.filter (fun s => decide (s.sessionType = SessionType.Class))
  let uniqueLabSessions := removeDuplicateDays labSessions
  let uniqueClassSessions := removeDuplicateDays classSessions
  if isLabCourse then
    uniqueLabSessions.take EXPECTED_LABS_PER_WEEK
  else
    uniqueClassSessions.take EXPECTED_CLASSES_PER_WEEK ++
      uniqueLabSessions.take EXPECTED_LABS_PER_WEEK

/-- `filterValidSessions`: group by course name and keep the expected weekly
allotment per course. -/
def filterValidSessions (sessions : List TimetableSession) : List TimetableSession :=
  ((groupSessionsBy (·.courseName) sessions).map (fun p => keepForCourse p.1 p.2)).flatten

/-! ## Gap scoring (`calculateTotalGapScore`) -/

/-- Stable insertion of a session into a list sorted by `startMinutes`
(equal starts keep their existing order, as JavaScript's stable sort does). -/
def sortByStartInsert (s : TimetableSession) : List TimetableSession → List TimetableSession
  | [] => [s]
  | t :: rest =>
    if t.startMinutes ≤ s.startMinutes then t :: sortByStartInsert s rest
    else s :: t :: rest

/-- Stable sort of sessions by `startMinutes` ascending. -/
def sortByStart (sessions : List TimetableSession) : List TimetableSession :=
  sessions.foldl (fun acc s => sortByStartInsert s acc) []

/-- Sum of positive differences between consecutive sessions' end and start
times. -/
def dayGaps : List TimetableSession → Nat
  | [] => 0
  | [_] => 0
  | a :: b :: rest =>
    (if a.endMinutes < b.startMinutes then b.startMinutes - a.endMinutes else 0) +
      dayGaps (b :: rest)

/-- `calculateTotalGapScore`: group by day, drop unknown-time sessions, sort
by start time, and sum the idle minutes between consecutive sessions. -/
def calculateTotalGapScore (sessions : List TimetableSession) : Nat :=
  ((groupSessionsBy (·.day) sessions).map (fun p =>
    dayGaps (sortByStart (p.2.filter (fun s => decide (s.startMinutes ≠ 9999)))))).sum

/-! ## Schedule search (`findOptimalSchedule`) -/

/-- A `CombinationResult`; the JavaScript `Infinity` initial best is
represented by `Option.none` at the call sites. -/
structure CombinationResult where
  assignments : List (String × String)
  schedule : List TimetableSession
  clashCount : Nat
  gapScore : Nat
  deriving DecidableEq, Repr

/-- One entry of `courseOptions`. -/
structure CourseOption where
  courseName : String
  sections : List String
  deriving DecidableEq, Repr

/-- The nested `courseSessionsMap` object: course name → section → sessions,
all levels in insertion order. -/
abbrev CourseMap := List (String × List (String × List TimetableSession))

/-- Append a session to its section bucket of one course's section map. -/
def insertSect : List (String × List TimetableSession) → TimetableSession →
    List (String × List TimetableSession)
  | [], s => [(s.sect, [s])]
  | (n, g) :: rest, s =>
    if n = s.sect then (n, g ++ [s]) :: rest
    else (n, g) :: insertSect rest s

/-- Append a session to the nested course → section map. -/
def insertCourseSection : CourseMap → TimetableSession → CourseMap
  | [], s => [(s.courseName, insertSect [] s)]
  | (n, secs) :: rest, s =>
    if n = s.courseName then (n, insertSect secs s) :: rest
    else (n, secs) :: insertCourseSection rest s

/-- The grouping pass of `findOptimalSchedule`: sessions of unselected
courses are skipped. -/
def buildCourseMap (allSessions : List TimetableSession)
    (selectedCourseNames : List String) : CourseMap :=
  allSessions.foldl
    (fun m s => if s.courseName ∈ selectedCourseNames then insertCourseSection m s else m) []

/-- `courseSessionsMap[courseName]?.[section] || []`. -/
def sessionsFor (cmap : CourseMap) (courseName sectionName : String) :
    List TimetableSession :=
  (((cmap.lookup courseName).getD []).lookup sectionName).getD []

/-- Available sections of one course: all sections found in the map minus
the caller-excluded ones, in map insertion order. -/
def availableSectionsIn (cmap : CourseMap)
    (excludedAssignments : List (String × List String)) (courseName : String) :
    List String :=
  let courseSections := (cmap.lookup courseName).getD []
  let allSections := courseSections.map Prod.fst
  let excludedSections := (excludedAssignments.lookup courseName).getD []
  allSections.filter (fun s => ¬ excludedSections.contains s)

/-- The option-building loop of `findOptimalSchedule`, which returns early
with the first course left without sections. -/
def buildOptions (cmap : CourseMap) (excludedAssignments : List (String × List String)) :
    List String → Except String (List CourseOption)
  | [] => .ok []
  | courseName :: rest =>
    let avail := availableSectionsIn cmap excludedAssignments courseName
    if avail = [] then .error courseName
    else
      match buildOptions cmap excludedAssignments rest with
      | .error e => .error e
      | .ok opts => .ok (⟨courseName, avail⟩ :: opts)

/-- `isBetterSchedule`: fewer clashes wins outright, ties broken by fewer
gap minutes. -/
def isBetterSchedule (candidate current : CombinationResult) : Bool :=
  if candidate.clashCount < current.clashCount then true
  else if candidate.clashCount > current.clashCount then false
  else decide (candidate.gapScore < current.gapScore)

/-- The best-so-far update `if (isBetterSchedule(result, bestResult))`,
with `none` as the `Infinity` dummy (a real result always beats it, and the
dummy never displaces anything). -/
def updateBest : Option CombinationResult → Option CombinationResult →
    Option CombinationResult
  | none, best => best
  | some r, none => some r
  | some r, some b => if isBetterSchedule r b then some r else some b

/-- `{...currentAssignments, [courseName]: section}`: update in place or
append. -/
def setAssign : List (String × String) → String → String → List (String × String)
  | [], courseName, s => [(courseName, s)]
  | (c', s') :: rest, courseName, s =>
    if c' = courseName then (courseName, s) :: rest
    else (c', s') :: setAssign rest courseName s

/-- The base case of `findBestCombination`: normalize, count clashes, score
gaps. -/
def leafResult (assigns : List (String × String)) (sched : List TimetableSession) :
    CombinationResult :=
  let validSchedule := filterValidSessions sched
  ⟨assigns, validSchedule, (detectClashes validSchedule).length,
    calculateTotalGapScore validSchedule⟩

/-- The early-pruning test: a clash-free best exists, at least one course is
already assigned, and the accumulated (normalized) partial schedule already
clashes. -/
def pruneCond (best : Option CombinationResult) (index : Nat)
    (newSchedule : List TimetableSession) : Bool :=
  match best with
  | some b =>
    decide (b.clashCount = 0 ∧ 1 ≤ index) &&
      decide (0 < (detectClashes (filterValidSessions newSchedule)).length)
  | none => false

/-- The `for (const section of sections)` loop of `findBestCombination`;
`recurse` is the recursive call on the remaining course options. -/
def sectionLoop (cmap : CourseMap) (courseName : String) (index : Nat)
    (recurse : List (String × String) → List TimetableSession →
      Option CombinationResult → Option CombinationResult)
    (assigns : List (String × String)) (sched : List TimetableSession) :
    List String → Option CombinationResult → Option CombinationResult
  | [], best => best
  | s :: more, best =>
    let newSchedule := sched ++ sessionsFor cmap courseName s
    if pruneCond best index newSchedule then
      sectionLoop cmap courseName index recurse assigns sched more best
    else
      sectionLoop cmap courseName index recurse assigns sched more
        (updateBest (recurse (setAssign assigns courseName s) newSchedule best) best)

/-- `findBestCombination`: depth-first search over the course options with
best-so-far threading and pruning. -/
def findBestCombination (cmap : CourseMap) :
    List CourseOption → Nat → List (String × String) → List TimetableSession →
    Option CombinationResult → Option CombinationResult
  | [], _, assigns, sched, _ => some (leafResult assigns sched)
  | opt :: rest, index, assigns, sched, best =>
    sectionLoop cmap opt.courseName index
      (fun a s b => findBestCombination cmap rest (index + 1) a s b)
      assigns sched opt.sections best

/-- The failure message naming a course with no remaining sections. -/
def noSectionsMessage (courseName : String) : String :=
  "No available sections for \"" ++ courseName ++
    "\" after exclusions. Please remove some exclusions."

/-- Display formatting of the gap total as hours+minutes or minutes. -/
def gapDisplay (gapScore : Nat) : String :=
  let gapHours := gapScore / 60
  let gapMins := gapScore % 60
  if gapHours > 0 then toString gapHours ++ "h " ++ toString gapMins ++ "m"
  else toString gapMins ++ "m"

/-- `findOptimalSchedule`.  The unreachable `Infinity` best (possible only
with an empty section list, which `buildOptions` rules out) is reported with
its JavaScript rendering. -/
def findOptimalSchedule (allSessions : List TimetableSession)
    (selectedCourseNames : List String)
    (excludedAssignments : List (String × List String)) : OptimalScheduleResult :=
  let cmap := buildCourseMap allSessions selectedCourseNames
  match buildOptions cmap excludedAssignments selectedCourseNames with
  | .error courseName => ⟨false, [], [], [], noSectionsMessage courseName⟩
  | .ok courseOptions =>
    match findBestCombination cmap courseOptions 0 [] [] none with
    | none =>
      ⟨false, [], [], [],
        "Could not find a clash-free schedule. Minimum clashes: Infinity. " ++
          "You may need to drop some courses or accept the clashes."⟩
    | some bestResult =>
      if bestResult.clashCount = 0 then
        let gapMessage :=
          if bestResult.gapScore > 0 then
            " Total gaps between classes: " ++ gapDisplay bestResult.gapScore ++ "."
          else " No gaps between classes!"
        ⟨true, bestResult.schedule, bestResult.assignments, [],
          "Found a clash-free schedule!" ++ gapMessage⟩
      else
        ⟨false, bestResult.schedule, bestResult.assignments,
          detectClashes bestResult.schedule,
          "Could not find a clash-free schedule. Minimum clashes: " ++
            toString bestResult.clashCount ++
            ". You may need to drop some courses or accept the clashes."⟩

/-! ## Session construction during extraction (`lib/timetable-extractor.ts`) -/

/-- The `TimetableSession` record built by `getTimetableForCourses` and
`getAllSessionsForBatch` for a matching cell: `startMinutes` and
`endMinutes` always come from `parseTimeSlot` of the resolved time-slot
text. -/
def sessionFromCell (id day timeSlot room : String) (sessionType : SessionType)
    (courseName sect batch department : String) (rank : Nat) (colorCode : String) :
    TimetableSession :=
  let t := parseTimeSlot timeSlot
  ⟨id, day, timeSlot, room, sessionType, courseName, sect, batch, department,
    rank, colorCode, t.start, t.stop⟩

/-! ## Proof-support definitions -/

/-- The dedup key recoverable from a recorded `Clash`. -/
def keyOf (c : Clash) : String :=
  String.intercalate "_" (sort3 c.course1 c.course2 c.day)

/-- Keys of the clashing pairs contributed by `session1` against the later
sessions, in scan order. -/
def pairKeysInner (session1 : TimetableSession) (rest : List TimetableSession) :
    List String :=
  (rest.filter (clashCond session1)).map (fun session2 => clashKey session1 session2)

/-- Keys of all clashing (i, j) pairs of a session list, in scan order. -/
def pairKeys : List TimetableSession → List String
  | [] => []
  | session1 :: rest => pairKeysInner session1 rest ++ pairKeys rest

/-- Fold a key list into a seen-set, keeping first occurrences. -/
def addKeys : List String → List String → List String
  | seen, [] => seen
  | seen, k :: ks => addKeys (if k ∈ seen then seen else k :: seen) ks

/-- First-occurrence deduplication of a string list. -/
def dedupFirstAux (seen : List String) : List String → List String
  | [] => []
  | x :: xs =>
    if x ∈ seen then dedupFirstAux seen xs
    else x :: dedupFirstAux (x :: seen) xs

/-- First-occurrence deduplication, as JavaScript object keys are ordered. -/
def dedupFirst (l : List String) : List String := dedupFirstAux [] l

/-- The schedules reachable by picking one available section per remaining
course option, concatenated in option order — the search's leaf schedules. -/
inductive Extends (cmap : CourseMap) : List CourseOption → List TimetableSession → Prop
  | nil : Extends cmap [] []
  | cons {opt : CourseOption} {rest : List CourseOption} {s : String}
      {t : List TimetableSession} :
      s ∈ opt.sections → Extends cmap rest t →
      Extends cmap (opt :: rest) (sessionsFor cmap opt.courseName s ++ t)

/-- The course-options list `findOptimalSchedule` builds when no selected
course is left without sections: each course paired with its available
sections. -/
def selectedOptions (allSessions : List TimetableSession)
    (selectedCourseNames : List String)
    (excludedAssignments : List (String × List String)) : List CourseOption :=
  selectedCourseNames.map (fun c =>
    ⟨c, availableSectionsIn (buildCourseMap allSessions selectedCourseNames)
      excludedAssignments c⟩)

/-- A concrete session used to instantiate universally quantified theorems
on a non-trivial input. -/
def sampleSession : TimetableSession :=
  ⟨"i1", "Monday", "9:00-9:50", "R1", SessionType.Class, "Algo", "A",
    "BS-CS-1", "CS", 0, "col", 540, 590⟩

/-! ## Parser lemmas -/

theorem digitVal_le (c : Char) (h : isDigitChar c = true) : digitVal c ≤ 9 := by
  simp only [isDigitChar, decide_eq_true_eq] at h
  simp only [digitVal]; omega

theorem scanTimes_bound (l : List Char) : ∀ p ∈ scanTimes l, p.1 ≤ 99 ∧ p.2 ≤ 99 := by
  induction l using scanTimes.induct with
  | case1 a b c d e rest h ih =>
    intro p hp
    rw [scanTimes, if_pos h] at hp
    simp only [List.mem_cons] at hp
    rcases hp with hp | hp
    · subst hp
      have ha := digitVal_le a h.1
      have hb := digitVal_le b h.2.1
      have hd := digitVal_le d h.2.2.2.1
      have he := digitVal_le e h.2.2.2.2
      constructor <;> simp <;> omega
    · exact ih p hp
  | case2 a b c d e rest h1 h2 ih =>
    intro p hp
    rw [scanTimes, if_neg h1, if_pos h2] at hp
    simp only [List.mem_cons] at hp
    rcases hp with hp | hp
    · subst hp
      have ha := digitVal_le a h2.1
      have hc := digitVal_le c h2.2.2.1
      have hd := digitVal_le d h2.2.2.2
      constructor <;> simp <;> omega
    · exact ih p hp
  | case3 a b c d e rest h1 h2 ih =>
    intro p hp
    rw [scanTimes, if_neg h1, if_neg h2] at hp
    exact ih p hp
  | case4 a b c d h =>
    intro p hp
    rw [scanTimes, if_pos h] at hp
    simp only [List.mem_singleton] at hp
    subst hp
    have ha := digitVal_le a h.1
    have hc := digitVal_le c h.2.2.1
    have hd := digitVal_le d h.2.2.2
    constructor <;> simp <;> omega
  | case5 a b c d h =>
    intro p hp
    rw [scanTimes, if_neg h] at hp
    simp at hp
  | case6 l h1 h2 =>
    intro p hp
    have hz : scanTimes l = [] := by
      rcases l with _ | ⟨a, _ | ⟨b, _ | ⟨c, _ | ⟨d, _ | ⟨e, rest⟩⟩⟩⟩⟩
      · rfl
      · rfl
      · rfl
      · rfl
      · exact absurd rfl (h2 a b c d)
      · exact absurd rfl (h1 a b c d e rest)
    rw [hz] at hp
    simp at hp

theorem heuristicHour_le (hour : Nat) (h : hour ≤ 99) : heuristicHour hour ≤ 111 := by
  unfold heuristicHour
  split
  · omega
  · split
    · omega
    · split <;> omega

theorem parseTime_le (hm : Nat × Nat) (s : String) (i : Nat)
    (h1 : hm.1 ≤ 99) (h2 : hm.2 ≤ 99) : parseTime hm s i ≤ 6759 := by
  rcases hm with ⟨hour, minute⟩
  simp only [parseTime]
  have hh : (if (ampmMarkers s).length > 0 then
      (if (ampmMarkers s).getD (min i ((ampmMarkers s).length - 1)) false ∧ hour ≠ 12
        then hour + 12
        else if (¬ (ampmMarkers s).getD (min i ((ampmMarkers s).length - 1)) false) ∧ hour = 12
          then 0 else hour)
      else heuristicHour hour) ≤ 111 := by
    have := heuristicHour_le hour h1
    split
    · split
      · simp at h1 ⊢; omega
      · split <;> omega
    · exact this
  simp only at h1 h2
  omega

/-- On input whose parse is not the sentinel pair, both components are small;
otherwise both are 9999. -/
theorem parseTimeSlot_cases (s : String) :
    parseTimeSlot s = ⟨9999, 9999⟩ ∨
      ((parseTimeSlot s).start ≤ 6759 ∧ (parseTimeSlot s).stop ≤ 6809) := by
  unfold parseTimeSlot
  split
  · exact Or.inl rfl
  · split
    · exact Or.inl rfl
    · rename_i first rest heq
      right
      have hmem : first ∈ scanTimes s.data := by rw [heq]; exact List.mem_cons_self _ _
      have hb := scanTimes_bound s.data first hmem
      have hstart := parseTime_le first s 0 hb.1 hb.2
      constructor
      · exact hstart
      · cases rest with
        | nil => simpa using Nat.add_le_add hstart (Nat.le_refl 50)
        | cons second rest2 =>
          have hmem2 : second ∈ scanTimes s.data := by
            rw [heq]; exact List.mem_cons_of_mem _ (List.mem_cons_self _ _)
          have hb2 := scanTimes_bound s.data second hmem2
          have := parseTime_le second s 1 hb2.1 hb2.2
          simpa using Nat.le_trans this (by omega)

theorem parseTimeSlot_start_sentinel (s : String) :
    (parseTimeSlot s).start = 9999 ↔ parseTimeSlot s = ⟨9999, 9999⟩ := by
  rcases parseTimeSlot_cases s with h | h
  · rw [h]; simp
  · constructor
    · intro hs; omega
    · intro hs; rw [hs] at h; simp at h

/-- C10: the sentinel never appears in only one component: for every input
string, `parseTimeSlot` returns start 9999 exactly when it returns end 9999,
so `doSessionsOverlap`'s start-only check suffices. -/
theorem parseTimeSlot_sentinel_iff (s : String) :
    (parseTimeSlot s).start = 9999 ↔ (parseTimeSlot s).stop = 9999 := by
  rcases parseTimeSlot_cases s with h | h
  · rw [h]
  · constructor <;> intro hs <;> omega

/-- C2: `doTimeSlotsOverlap` is false whenever either slot parses to the
sentinel pair, and otherwise holds exactly when the half-open intervals
properly overlap; in particular slots that merely touch at 09:50 do not
overlap. -/
theorem doTimeSlotsOverlap_halfOpen :
    (∀ a b : String,
      doTimeSlotsOverlap a b = true ↔
        (parseTimeSlot a ≠ ⟨9999, 9999⟩ ∧ parseTimeSlot b ≠ ⟨9999, 9999⟩ ∧
          ¬ ((parseTimeSlot a).stop ≤ (parseTimeSlot b).start ∨
             (parseTimeSlot b).stop ≤ (parseTimeSlot a).start))) ∧
    doTimeSlotsOverlap "09:00-09:50" "09:50-10:40" = false := by
  constructor
  · intro a b
    unfold doTimeSlotsOverlap
    dsimp only
    split
    · rename_i h
      simp only [Bool.false_eq_true, false_iff]
      intro hc
      rcases h with h | h
      · exact hc.1 ((parseTimeSlot_start_sentinel a).mp h)
      · exact hc.2.1 ((parseTimeSlot_start_sentinel b).mp h)
    · rename_i h
      push_neg at h
      simp only [decide_eq_true_eq]
      constructor
      · intro hno
        refine ⟨?_, ?_, hno⟩
        · intro hs; exact h.1 ((parseTimeSlot_start_sentinel a).mpr hs)
        · intro hs; exact h.2 ((parseTimeSlot_start_sentinel b).mpr hs)
      · intro hc; exact hc.2.2
  · decide

/-- C7: with at least one `H:MM` token and no AM/PM marker, each token's
hour is converted by the institutional heuristic (8–11 kept, 12 noon, 1–7
shifted by +12); `"1:00-2:00"` parses to 780–840 minutes (13:00–14:00). -/
theorem parseTimeSlot_institutional_heuristic (s : String) (h m : Nat)
    (rest : List (Nat × Nat)) (hs1 : s ≠ "") (hs2 : s ≠ "Unknown")
    (htok : scanTimes s.data = (h, m) :: rest) (hampm : ampmMarkers s = []) :
    (parseTimeSlot s).start = heuristicHour h * 60 + m ∧
    (∀ h2 m2 rest2, rest = (h2, m2) :: rest2 →
      (parseTimeSlot s).stop = heuristicHour h2 * 60 + m2) ∧
    (∀ k, ((8 ≤ k ∧ k ≤ 11) → heuristicHour k = k) ∧ heuristicHour 12 = 12 ∧
      ((1 ≤ k ∧ k ≤ 7) → heuristicHour k = k + 12)) ∧
    parseTimeSlot "1:00-2:00" = ⟨780, 840⟩ := by
  have hcond : ¬ (s = "" ∨ s = "Unknown") := by
    intro hc; rcases hc with hc | hc
    · exact hs1 hc
    · exact hs2 hc
  have hpt : ∀ hm' i, parseTime hm' s i = heuristicHour hm'.1 * 60 + hm'.2 := by
    intro hm' i
    simp only [parseTime, hampm, List.length_nil, gt_iff_lt, Nat.lt_irrefl, if_false]
  refine ⟨?_, ?_, ?_, ?_⟩
  · unfold parseTimeSlot
    rw [if_neg hcond, htok]
    cases rest <;> simp [hpt]
  · intro h2 m2 rest2 hrest
    subst hrest
    unfold parseTimeSlot
    rw [if_neg hcond, htok]
    simp [hpt]
  · intro k
    refine ⟨fun hk => ?_, ?_, fun hk => ?_⟩
    · unfold heuristicHour; rw [if_pos hk]
    · decide
    · unfold heuristicHour
      rw [if_neg (by omega), if_neg (by omega), if_pos hk]
  · decide

/-- Witness for the C7 theorem at the spec's own scenario string. -/
theorem parseTimeSlot_institutional_heuristic_witness :
    (("1:00-2:00" : String) ≠ "" ∧ ("1:00-2:00" : String) ≠ "Unknown" ∧
      scanTimes ("1:00-2:00" : String).data = [(1, 0), (2, 0)] ∧
      ampmMarkers "1:00-2:00" = []) ∧
    ((parseTimeSlot "1:00-2:00").start = heuristicHour 1 * 60 + 0 ∧
    (∀ h2 m2 rest2, ([((2 : Nat), (0 : Nat))] : List (Nat × Nat)) = (h2, m2) :: rest2 →
      (parseTimeSlot "1:00-2:00").stop = heuristicHour h2 * 60 + m2) ∧
    (∀ k, ((8 ≤ k ∧ k ≤ 11) → heuristicHour k = k) ∧ heuristicHour 12 = 12 ∧
      ((1 ≤ k ∧ k ≤ 7) → heuristicHour k = k + 12)) ∧
    parseTimeSlot "1:00-2:00" = ⟨780, 840⟩) :=
  ⟨⟨by decide, by decide, by decide, by decide⟩,
    parseTimeSlot_institutional_heuristic "1:00-2:00" 1 0 [(2, 0)]
      (by decide) (by decide) (by decide) (by decide)⟩

/-- C8 counterexample: the extractor can build a session whose parsed start
exceeds its parsed end without either being the sentinel — time text
`"2:00-9:00"` parses to 840–540 (the heuristic maps hour 2 to PM and hour 9
to AM). -/
theorem sessionFromCell_start_gt_stop_cex :
    (sessionFromCell "k" "Monday" "2:00-9:00" "R1" SessionType.Class
        "Algo" "A" "BS-CS-1" "CS" 0 "col").endMinutes <
      (sessionFromCell "k" "Monday" "2:00-9:00" "R1" SessionType.Class
        "Algo" "A" "BS-CS-1" "CS" 0 "col").startMinutes ∧
    (sessionFromCell "k" "Monday" "2:00-9:00" "R1" SessionType.Class
        "Algo" "A" "BS-CS-1" "CS" 0 "col").startMinutes ≠ 9999 := by
  decide

/-- C8 amended: extracted sessions satisfy `startMinutes ≤ endMinutes`
whenever their time text has at most one `H:MM` token (no token gives the
all-sentinel pair, one token gives end = start + 50); with two tokens the
start can exceed the end. -/
theorem sessionFromCell_start_le_stop (id day timeSlot room : String)
    (ty : SessionType) (courseName sect batch department : String) (rank : Nat)
    (colorCode : String) (htok : (scanTimes timeSlot.data).length ≤ 1) :
    (sessionFromCell id day timeSlot room ty courseName sect batch department
        rank colorCode).startMinutes ≤
      (sessionFromCell id day timeSlot room ty courseName sect batch department
        rank colorCode).endMinutes := by
  simp only [sessionFromCell]
  unfold parseTimeSlot
  split
  · exact Nat.le_refl _
  · split
    · exact Nat.le_refl _
    · rename_i first rest heq
      cases rest with
      | nil => simp
      | cons second rest2 => rw [heq] at htok; simp at htok

/-- Witness for the amended C8 theorem on a one-token slot. -/
theorem sessionFromCell_start_le_stop_witness :
    (scanTimes ("9:30" : String).data).length ≤ 1 ∧
    (sessionFromCell "k" "Monday" "9:30" "R1" SessionType.Class
        "Algo" "A" "BS-CS-1" "CS" 0 "col").startMinutes ≤
      (sessionFromCell "k" "Monday" "9:30" "R1" SessionType.Class
        "Algo" "A" "BS-CS-1" "CS" 0 "col").endMinutes :=
  ⟨by decide,
    sessionFromCell_start_le_stop "k" "Monday" "9:30" "R1" SessionType.Class
      "Algo" "A" "BS-CS-1" "CS" 0 "col" (by decide)⟩

/-! ## Clash-detector invariants -/

theorem sort3_swap (a b c : String) : sort3 a b c = sort3 b a c := by
  unfold sort3
  refine List.eq_of_perm_of_sorted ?_ (List.sorted_insertionSort _ _)
    (List.sorted_insertionSort _ _)
  exact ((List.perm_insertionSort _ _).trans (List.Perm.swap b a [c])).trans
    (List.perm_insertionSort _ _).symm

theorem keyOf_mkClash (session1 session2 : TimetableSession) :
    keyOf (mkClash session1 session2) = clashKey session1 session2 := rfl

theorem keyOf_eq_of_same_pair (c c' : Clash) (hd : c.day = c'.day)
    (hp : (c.course1 = c'.course1 ∧ c.course2 = c'.course2) ∨
      (c.course1 = c'.course2 ∧ c.course2 = c'.course1)) :
    keyOf c = keyOf c' := by
  rcases hp with ⟨h1, h2⟩ | ⟨h1, h2⟩
  · unfold keyOf; rw [h1, h2, hd]
  · unfold keyOf; rw [h1, h2, hd, sort3_swap]

theorem detectClashesInner_inv (session1 : TimetableSession)
    (rest : List TimetableSession) :
    ∀ seen acc,
      (∀ c ∈ acc, keyOf c ∈ seen) →
      List.Pairwise (fun c c' => keyOf c ≠ keyOf c') acc →
      (∀ k ∈ seen, k ∈ (detectClashesInner session1 rest seen acc).1) ∧
      (∀ c ∈ (detectClashesInner session1 rest seen acc).2,
        keyOf c ∈ (detectClashesInner session1 rest seen acc).1) ∧
      List.Pairwise (fun c c' => keyOf c ≠ keyOf c')
        (detectClashesInner session1 rest seen acc).2 := by
  induction rest with
  | nil =>
    intro seen acc h1 h2
    exact ⟨fun k hk => hk, h1, h2⟩
  | cons session2 rest ih =>
    intro seen acc h1 h2
    rw [detectClashesInner]
    dsimp only
    split
    · split
      · exact ih seen acc h1 h2
      · rename_i hkey
        have h1' : ∀ c ∈ acc ++ [mkClash session1 session2],
            keyOf c ∈ clashKey session1 session2 :: seen := by
          intro c hc
          rcases List.mem_append.mp hc with hc | hc
          · exact List.mem_cons_of_mem _ (h1 c hc)
          · simp only [List.mem_singleton] at hc
            subst hc
            rw [keyOf_mkClash]
            exact List.mem_cons_self _ _
        have h2' : List.Pairwise (fun c c' => keyOf c ≠ keyOf c')
            (acc ++ [mkClash session1 session2]) := by
          rw [List.pairwise_append]
          refine ⟨h2, List.pairwise_singleton _ _, ?_⟩
          intro c hc c' hc'
          simp only [List.mem_singleton] at hc'
          subst hc'
          rw [keyOf_mkClash]
          intro heq
          exact hkey (heq ▸ h1 c hc)
        have hr := ih (clashKey session1 session2 :: seen)
          (acc ++ [mkClash session1 session2]) h1' h2'
        exact ⟨fun k hk => hr.1 k (List.mem_cons_of_mem _ hk), hr.2.1, hr.2.2⟩
    · exact ih seen acc h1 h2

theorem detectClashesOuter_inv (sessions : List TimetableSession) :
    ∀ seen acc,
      (∀ c ∈ acc, keyOf c ∈ seen) →
      List.Pairwise (fun c c' => keyOf c ≠ keyOf c') acc →
      List.Pairwise (fun c c' => keyOf c ≠ keyOf c')
        (detectClashesOuter sessions seen acc) := by
  induction sessions with
  | nil => intro seen acc _ h2; exact h2
  | cons session1 rest ih =>
    intro seen acc h1 h2
    rw [detectClashesOuter]
    have hi := detectClashesInner_inv session1 rest seen acc h1 h2
    exact ih _ _ hi.2.1 hi.2.2

/-- C4: `detectClashes` reports at most one clash per unordered
(courseA, courseB, day) triple: no two entries of its output agree on the
day and on the unordered pair of course names. -/
theorem detectClashes_dedup_by_pair_day (sessions : List TimetableSession) :
    List.Pairwise (fun c c' => ¬ (c.day = c'.day ∧
      ((c.course1 = c'.course1 ∧ c.course2 = c'.course2) ∨
       (c.course1 = c'.course2 ∧ c.course2 = c'.course1))))
      (detectClashes sessions) := by
  have h := detectClashesOuter_inv sessions [] [] (by intro c hc; simp at hc)
    List.Pairwise.nil
  refine h.imp ?_
  intro c c' hne hsame
  exact hne (keyOf_eq_of_same_pair c c' hsame.1 hsame.2)

theorem detectClashesInner_course_ne (session1 : TimetableSession)
    (rest : List TimetableSession) :
    ∀ seen acc, (∀ c ∈ acc, c.course1 ≠ c.course2) →
      ∀ c ∈ (detectClashesInner session1 rest seen acc).2,
        c.course1 ≠ c.course2 := by
  induction rest with
  | nil => intro seen acc h; exact h
  | cons session2 rest ih =>
    intro seen acc h
    rw [detectClashesInner]
    dsimp only
    split
    · rename_i hcond
      simp only [clashCond, decide_eq_true_eq] at hcond
      split
      · exact ih seen acc h
      · refine ih _ _ ?_
        intro c hc
        rcases List.mem_append.mp hc with hc | hc
        · exact h c hc
        · simp only [List.mem_singleton] at hc
          subst hc
          exact hcond.1
    · exact ih seen acc h

theorem detectClashesOuter_course_ne (sessions : List TimetableSession) :
    ∀ seen acc, (∀ c ∈ acc, c.course1 ≠ c.course2) →
      ∀ c ∈ detectClashesOuter sessions seen acc, c.course1 ≠ c.course2 := by
  induction sessions with
  | nil => intro seen acc h; exact h
  | cons session1 rest ih =>
    intro seen acc h
    rw [detectClashesOuter]
    exact ih _ _ (detectClashesInner_course_ne session1 rest seen acc h)

/-- C3: same-course immunity — every clash output by `detectClashes` pairs
two distinct course names, so sessions of one course (any sections) are
never reported against each other. -/
theorem detectClashes_same_course_immunity (sessions : List TimetableSession)
    (c : Clash) (hc : c ∈ detectClashes sessions) : c.course1 ≠ c.course2 :=
  detectClashesOuter_course_ne sessions [] [] (by intro c hc; simp at hc) c hc

/-- Witness for C3 on a concrete clashing pair. -/
theorem detectClashes_same_course_immunity_witness :
    (⟨"Algo", "Net", "Monday", "9:00-9:50", "9:00-9:50", "A", "B"⟩ : Clash) ∈
      detectClashes
        [⟨"i1", "Monday", "9:00-9:50", "R1", SessionType.Class, "Algo", "A",
           "b", "d", 0, "c", 540, 590⟩,
         ⟨"i2", "Monday", "9:00-9:50", "R2", SessionType.Class, "Net", "B",
           "b", "d", 0, "c", 540, 590⟩] ∧
    ("Algo" : String) ≠ "Net" :=
  ⟨by decide,
    detectClashes_same_course_immunity
      [⟨"i1", "Monday", "9:00-9:50", "R1", SessionType.Class, "Algo", "A",
         "b", "d", 0, "c", 540, 590⟩,
       ⟨"i2", "Monday", "9:00-9:50", "R2", SessionType.Class, "Net", "B",
         "b", "d", 0, "c", 540, 590⟩]
      ⟨"Algo", "Net", "Monday", "9:00-9:50", "9:00-9:50", "A", "B"⟩ (by decide)⟩

/-! ## Clash counting -/

theorem addKeys_append (ks1 ks2 : List String) :
    ∀ seen, addKeys seen (ks1 ++ ks2) = addKeys (addKeys seen ks1) ks2 := by
  induction ks1 with
  | nil => intro seen; rfl
  | cons k ks ih => intro seen; rw [List.cons_append, addKeys, addKeys, ih]

theorem mem_addKeys (a : String) (ks : List String) :
    ∀ seen, a ∈ addKeys seen ks ↔ a ∈ seen ∨ a ∈ ks := by
  induction ks with
  | nil => intro seen; simp [addKeys]
  | cons k ks ih =>
    intro seen
    rw [addKeys, ih]
    split
    · rename_i hk
      constructor
      · intro h
        rcases h with h | h
        · exact Or.inl h
        · exact Or.inr (List.mem_cons_of_mem _ h)
      · intro h
        rcases h with h | h
        · exact Or.inl h
        · rcases List.mem_cons.mp h with h | h
          · exact Or.inl (h ▸ hk)
          · exact Or.inr h
    · constructor
      · intro h
        rcases h with h | h
        · rcases List.mem_cons.mp h with h | h
          · exact Or.inr (h ▸ List.mem_cons_self _ _)
          · exact Or.inl h
        · exact Or.inr (List.mem_cons_of_mem _ h)
      · intro h
        rcases h with h | h
        · exact Or.inl (List.mem_cons_of_mem _ h)
        · rcases List.mem_cons.mp h with h | h
          · exact Or.inl (h ▸ List.mem_cons_self _ _)
          · exact Or.inr h

theorem addKeys_nodup (ks : List String) :
    ∀ seen : List String, seen.Nodup → (addKeys seen ks).Nodup := by
  induction ks with
  | nil => intro seen h; exact h
  | cons k ks ih =>
    intro seen h
    rw [addKeys]
    split
    · exact ih seen h
    · rename_i hk
      exact ih (k :: seen) (List.nodup_cons.mpr ⟨hk, h⟩)

theorem addKeys_nil_length (ks : List String) :
    (addKeys [] ks).length = ks.toFinset.card := by
  have hnd : (addKeys [] ks).Nodup := addKeys_nodup ks [] List.nodup_nil
  have hft : (addKeys [] ks).toFinset = ks.toFinset := by
    ext a
    simp only [List.mem_toFinset, mem_addKeys a ks []]
    simp
  calc (addKeys [] ks).length = (addKeys [] ks).dedup.length := by
        rw [List.dedup_eq_self.mpr hnd]
    _ = (addKeys [] ks).toFinset.card := (List.card_toFinset _).symm
    _ = ks.toFinset.card := by rw [hft]

theorem detectClashesInner_fst (session1 : TimetableSession)
    (rest : List TimetableSession) :
    ∀ seen acc, (detectClashesInner session1 rest seen acc).1 =
      addKeys seen (pairKeysInner session1 rest) := by
  induction rest with
  | nil => intro seen acc; rfl
  | cons session2 rest ih =>
    intro seen acc
    rw [detectClashesInner]
    dsimp only
    rw [pairKeysInner, List.filter_cons]
    split
    · rw [List.map_cons, addKeys]
      split
      · exact ih seen acc
      · exact ih _ _
    · exact ih seen acc

theorem detectClashesInner_len (session1 : TimetableSession)
    (rest : List TimetableSession) :
    ∀ seen acc, (detectClashesInner session1 rest seen acc).2.length + seen.length =
      acc.length + (detectClashesInner session1 rest seen acc).1.length := by
  induction rest with
  | nil => intro seen acc; rfl
  | cons session2 rest ih =>
    intro seen acc
    rw [detectClashesInner]
    dsimp only
    split
    · split
      · exact ih seen acc
      · have := ih (clashKey session1 session2 :: seen)
          (acc ++ [mkClash session1 session2])
        simp only [List.length_cons, List.length_append, List.length_nil] at this
        omega
    · exact ih seen acc

theorem detectClashesOuter_len (sessions : List TimetableSession) :
    ∀ seen acc, (detectClashesOuter sessions seen acc).length + seen.length =
      acc.length + (addKeys seen (pairKeys sessions)).length := by
  induction sessions with
  | nil => intro seen acc; rfl
  | cons session1 rest ih =>
    intro seen acc
    rw [detectClashesOuter]
    have hlen := detectClashesInner_len session1 rest seen acc
    have hfst := detectClashesInner_fst session1 rest seen acc
    have hout := ih (detectClashesInner session1 rest seen acc).1
      (detectClashesInner session1 rest seen acc).2
    rw [pairKeys, addKeys_append, ← hfst]
    omega

theorem detectClashes_length (sessions : List TimetableSession) :
    (detectClashes sessions).length = (pairKeys sessions).toFinset.card := by
  have := detectClashesOuter_len sessions [] []
  simp only [List.length_nil, Nat.add_zero, Nat.zero_add] at this
  rw [detectClashes, this, addKeys_nil_length]

theorem pairKeysInner_sublist (session1 : TimetableSession)
    {A B : List TimetableSession} (h : A.Sublist B) :
    (pairKeysInner session1 A).Sublist (pairKeysInner session1 B) :=
  (h.filter _).map _

theorem pairKeys_sublist {A B : List TimetableSession} (h : A.Sublist B) :
    (pairKeys A).Sublist (pairKeys B) := by
  induction h with
  | slnil => exact List.Sublist.refl _
  | cons x h ih => exact ih.trans (List.sublist_append_right _ _)
  | cons₂ x h ih => exact List.Sublist.append (pairKeysInner_sublist x h) ih

/-- Monotonicity of the clash count under sublist extension of the session
list (the distinct dedup keys of the smaller scan all appear in the larger
one). -/
theorem detectClashes_length_mono {A B : List TimetableSession}
    (h : A.Sublist B) : (detectClashes A).length ≤ (detectClashes B).length := by
  rw [detectClashes_length, detectClashes_length]
  apply Finset.card_le_card
  intro k hk
  rw [List.mem_toFinset] at hk ⊢
  exact (pairKeys_sublist h).subset hk

/-- C5: appending a session never decreases the clash count reported by
`detectClashes`, the fact underlying the search's pruning. -/
theorem detectClashes_append_monotone (sessions : List TimetableSession)
    (s : TimetableSession) :
    (detectClashes sessions).length ≤ (detectClashes (sessions ++ [s])).length :=
  detectClashes_length_mono (List.sublist_append_left sessions [s])

/-! ## Grouping lemmas -/

section Grouping

variable (key : TimetableSession → String)

theorem insertGrouped_fresh (x : TimetableSession) :
    ∀ acc : List (String × List TimetableSession),
      key x ∉ acc.map Prod.fst →
      insertGrouped key acc x = acc ++ [(key x, [x])] := by
  intro acc
  induction acc with
  | nil => intro _; rfl
  | cons p rest ih =>
    intro h
    rcases p with ⟨m, g⟩
    simp only [List.map_cons, List.mem_cons] at h
    push_neg at h
    rw [insertGrouped, if_neg (fun hc => h.1 hc.symm), List.cons_append, ih h.2]

theorem insertGrouped_last (x : TimetableSession) (n : String)
    (hx : key x = n) (h : List TimetableSession) :
    ∀ acc : List (String × List TimetableSession),
      n ∉ acc.map Prod.fst →
      insertGrouped key (acc ++ [(n, h)]) x = acc ++ [(n, h ++ [x])] := by
  intro acc
  induction acc with
  | nil =>
    intro _
    simp only [List.nil_append]
    rw [insertGrouped, if_pos hx.symm]
  | cons p rest ih =>
    intro hmem
    rcases p with ⟨m, g⟩
    simp only [List.map_cons, List.mem_cons] at hmem
    push_neg at hmem
    rw [List.cons_append, insertGrouped, if_neg (fun hc => hmem.1 (hc.trans hx).symm),
      ih hmem.2, List.cons_append]

theorem insertGrouped_content (x : TimetableSession) :
    ∀ acc : List (String × List TimetableSession),
      (∀ p ∈ acc, ∀ y ∈ p.2, key y = p.1) →
      ∀ p ∈ insertGrouped key acc x, ∀ y ∈ p.2, key y = p.1 := by
  intro acc
  induction acc with
  | nil =>
    intro _ p hp
    simp only [insertGrouped, List.mem_singleton] at hp
    subst hp
    intro y hy
    simp only [List.mem_singleton] at hy
    subst hy
    rfl
  | cons q rest ih =>
    intro hinv p hp
    rcases q with ⟨m, g⟩
    rw [insertGrouped] at hp
    split at hp
    · rename_i hm
      rcases List.mem_cons.mp hp with hp | hp
      · subst hp
        intro y hy
        rcases List.mem_append.mp hy with hy | hy
        · exact hinv (m, g) (List.mem_cons_self _ _) y hy
        · simp only [List.mem_singleton] at hy
          subst hy
          exact hm.symm
      · exact hinv p (List.mem_cons_of_mem _ hp)
    · rcases List.mem_cons.mp hp with hp | hp
      · subst hp
        exact hinv (m, g) (List.mem_cons_self _ _)
      · exact ih (fun q hq => hinv q (List.mem_cons_of_mem _ hq)) p hp

theorem insertGrouped_names (x : TimetableSession) :
    ∀ acc : List (String × List TimetableSession),
      (insertGrouped key acc x).map Prod.fst =
        if key x ∈ acc.map Prod.fst then acc.map Prod.fst
        else acc.map Prod.fst ++ [key x] := by
  intro acc
  induction acc with
  | nil => simp [insertGrouped]
  | cons q rest ih =>
    rcases q with ⟨m, g⟩
    rw [insertGrouped]
    split
    · rename_i hm
      simp only [List.map_cons]
      rw [if_pos (by exact List.mem_cons.mpr (Or.inl hm.symm))]
    · rename_i hm
      have hne : key x ≠ m := fun hc => hm hc.symm
      simp only [List.map_cons, ih]
      by_cases hc : key x ∈ List.map Prod.fst rest
      · rw [if_pos hc, if_pos (List.mem_cons_of_mem _ hc)]
      · rw [if_neg hc, if_neg (by
          intro hd
          rcases List.mem_cons.mp hd with hd | hd
          · exact hne hd
          · exact hc hd), List.cons_append]

theorem groupSessionsBy_content (l : List TimetableSession) :
    ∀ p ∈ groupSessionsBy key l, ∀ y ∈ p.2, key y = p.1 := by
  have main : ∀ (l : List TimetableSession) (acc : List (String × List TimetableSession)),
      (∀ p ∈ acc, ∀ y ∈ p.2, key y = p.1) →
      ∀ p ∈ l.foldl (insertGrouped key) acc, ∀ y ∈ p.2, key y = p.1 := by
    intro l
    induction l with
    | nil => intro acc h; exact h
    | cons x rest ih =>
      intro acc h
      exact ih _ (insertGrouped_content key x acc h)
  exact main l [] (by intro p hp; simp at hp)

theorem groupSessionsBy_names_nodup (l : List TimetableSession) :
    ((groupSessionsBy key l).map Prod.fst).Nodup := by
  have main : ∀ (l : List TimetableSession) (acc : List (String × List TimetableSession)),
      (acc.map Prod.fst).Nodup →
      ((l.foldl (insertGrouped key) acc).map Prod.fst).Nodup := by
    intro l
    induction l with
    | nil => intro acc h; exact h
    | cons x rest ih =>
      intro acc h
      refine ih _ ?_
      rw [insertGrouped_names]
      split
      · exact h
      · rename_i hm
        rw [List.nodup_append]
        refine ⟨h, List.nodup_singleton _, ?_⟩
        intro a ha hb
        simp only [List.mem_singleton] at hb
        subst hb
        exact hm ha
  exact main l [] List.nodup_nil

theorem foldl_insertGrouped_block (n : String) :
    ∀ (g : List TimetableSession) (h : List TimetableSession)
      (acc : List (String × List TimetableSession)),
      (∀ x ∈ g, key x = n) → n ∉ acc.map Prod.fst →
      g.foldl (insertGrouped key) (acc ++ [(n, h)]) = acc ++ [(n, h ++ g)] := by
  intro g
  induction g with
  | nil => intro h acc _ _; rw [List.foldl_nil, List.append_nil]
  | cons y g' ih =>
    intro h acc hall hmem
    rw [List.foldl_cons,
      insertGrouped_last key y n (hall y (List.mem_cons_self _ _)) h acc hmem,
      ih (h ++ [y]) acc (fun x hx => hall x (List.mem_cons_of_mem _ hx)) hmem,
      List.append_assoc, List.singleton_append]

theorem foldl_insertGrouped_blocks :
    ∀ (blocks : List (String × List TimetableSession))
      (acc : List (String × List TimetableSession)),
      ((blocks.map Prod.fst).Nodup) →
      (∀ p ∈ blocks, ∀ x ∈ p.2, key x = p.1) →
      (∀ p ∈ blocks, p.1 ∉ acc.map Prod.fst) →
      ((blocks.map Prod.snd).flatten).foldl (insertGrouped key) acc =
        acc ++ blocks.filter (fun p => decide (p.2 ≠ [])) := by
  intro blocks
  induction blocks with
  | nil => intro acc _ _ _; rw [List.map_nil, List.flatten_nil, List.foldl_nil,
      List.filter_nil, List.append_nil]
  | cons b bs ih =>
    intro acc hnd hcontent hfresh
    rcases b with ⟨n, g⟩
    simp only [List.map_cons, List.flatten_cons, List.foldl_append]
    simp only [List.map_cons, List.nodup_cons] at hnd
    have hgall : ∀ x ∈ g, key x = n :=
      hcontent (n, g) (List.mem_cons_self _ _)
    have hnacc : n ∉ acc.map Prod.fst := hfresh (n, g) (List.mem_cons_self _ _)
    rcases eq_or_ne g [] with hg | hg
    · subst hg
      rw [List.foldl_nil, List.filter_cons, if_neg (by simp)]
      exact ih acc hnd.2 (fun p hp => hcontent p (List.mem_cons_of_mem _ hp))
        (fun p hp => hfresh p (List.mem_cons_of_mem _ hp))
    · have hblock : g.foldl (insertGrouped key) acc = acc ++ [(n, g)] := by
        rcases g with _ | ⟨y, g'⟩
        · exact absurd rfl hg
        · rw [List.foldl_cons, insertGrouped_fresh key y acc
            ((hgall y (List.mem_cons_self _ _)) ▸ hnacc),
            hgall y (List.mem_cons_self _ _),
            foldl_insertGrouped_block key n g' [y] acc
              (fun x hx => hgall x (List.mem_cons_of_mem _ hx)) hnacc,
            List.singleton_append]
      rw [hblock]
      have hstep := ih (acc ++ [(n, g)]) hnd.2
        (fun p hp => hcontent p (List.mem_cons_of_mem _ hp))
        (fun p hp => by
          simp only [List.map_append, List.map_cons, List.map_nil, List.mem_append,
            List.mem_singleton]
          push_neg
          exact ⟨hfresh p (List.mem_cons_of_mem _ hp),
            fun hc => hnd.1 (hc ▸ (List.mem_map.mpr ⟨p, hp, rfl⟩))⟩)
      rw [hstep, List.filter_cons, if_pos (by simp [hg]),
        List.append_assoc, List.singleton_append]

end Grouping

/-! ## Normalizer lemmas -/

theorem removeDupAux_subset (l : List TimetableSession) :
    ∀ seen, ∀ x ∈ removeDupAux seen l, x ∈ l := by
  induction l with
  | nil => intro seen x hx; exact absurd hx (by simp [removeDupAux])
  | cons s rest ih =>
    intro seen x hx
    rw [removeDupAux] at hx
    split at hx
    · exact List.mem_cons_of_mem _ (ih seen x hx)
    · rcases List.mem_cons.mp hx with hx | hx
      · exact hx ▸ List.mem_cons_self _ _
      · exact List.mem_cons_of_mem _ (ih _ x hx)

theorem removeDupAux_keys (l : List TimetableSession) :
    ∀ seen, ((removeDupAux seen l).map dayTypeKey).Nodup ∧
      ∀ k ∈ (removeDupAux seen l).map dayTypeKey, k ∉ seen := by
  induction l with
  | nil => intro seen; simp [removeDupAux]
  | cons s rest ih =>
    intro seen
    rw [removeDupAux]
    split
    · exact ih seen
    · rename_i hs
      have h := ih (dayTypeKey s :: seen)
      simp only [List.map_cons, List.nodup_cons]
      refine ⟨⟨fun hc => (h.2 _ hc) (List.mem_cons_self _ _), h.1⟩, ?_⟩
      intro k hk
      rcases List.mem_cons.mp hk with hk | hk
      · exact hk ▸ hs
      · exact fun hc => (h.2 k hk) (List.mem_cons_of_mem _ hc)

theorem removeDupAux_of_nodup (l : List TimetableSession) :
    ∀ seen, (l.map dayTypeKey).Nodup → (∀ x ∈ l, dayTypeKey x ∉ seen) →
      removeDupAux seen l = l := by
  induction l with
  | nil => intro seen _ _; rfl
  | cons s rest ih =>
    intro seen hnd hdisj
    simp only [List.map_cons, List.nodup_cons] at hnd
    rw [removeDupAux, if_neg (hdisj s (List.mem_cons_self _ _))]
    rw [ih (dayTypeKey s :: seen) hnd.2]
    intro x hx hk
    rcases List.mem_cons.mp hk with hk | hk
    · exact hnd.1 (hk ▸ List.mem_map.mpr ⟨x, hx, rfl⟩)
    · exact hdisj x (List.mem_cons_of_mem _ hx) hk

theorem removeDuplicateDays_keys_nodup (l : List TimetableSession) :
    ((removeDuplicateDays l).map dayTypeKey).Nodup :=
  ((removeDupAux_keys l) []).1

theorem removeDuplicateDays_of_nodup (l : List TimetableSession)
    (h : (l.map dayTypeKey).Nodup) : removeDuplicateDays l = l :=
  removeDupAux_of_nodup l [] h (by intro x _ hk; exact absurd hk (List.not_mem_nil _))

theorem keepForCourse_subset (n : String) (g : List TimetableSession) :
    ∀ x ∈ keepForCourse n g, x ∈ g := by
  intro x hx
  unfold keepForCourse at hx
  dsimp only at hx
  split at hx
  · have := List.take_subset _ _ hx
    have := removeDupAux_subset _ [] x this
    exact (List.mem_filter.mp this).1
  · rcases List.mem_append.mp hx with hx | hx
    · have := List.take_subset _ _ hx
      have := removeDupAux_subset _ [] x this
      exact (List.mem_filter.mp this).1
    · have := List.take_subset _ _ hx
      have := removeDupAux_subset _ [] x this
      exact (List.mem_filter.mp this).1

theorem keepForCourse_idem (n : String) (g : List TimetableSession) :
    keepForCourse n (keepForCourse n g) = keepForCourse n g := by
  have hfl : ∀ h : List TimetableSession,
      ∀ x ∈ removeDuplicateDays
        (h.filter (fun s => decide (s.sessionType = SessionType.Lab))),
        x.sessionType = SessionType.Lab := by
    intro h x hx
    have := removeDupAux_subset _ [] x hx
    have := (List.mem_filter.mp this).2
    simpa using this
  have hfc : ∀ h : List TimetableSession,
      ∀ x ∈ removeDuplicateDays
        (h.filter (fun s => decide (s.sessionType = SessionType.Class))),
        x.sessionType = SessionType.Class := by
    intro h x hx
    have := removeDupAux_subset _ [] x hx
    have := (List.mem_filter.mp this).2
    simpa using this
  unfold keepForCourse
  dsimp only
  set ul := removeDuplicateDays
    (g.filter (fun s => decide (s.sessionType = SessionType.Lab))) with hul
  set uc := removeDuplicateDays
    (g.filter (fun s => decide (s.sessionType = SessionType.Class))) with huc
  have hulK : (ul.map dayTypeKey).Nodup := removeDuplicateDays_keys_nodup _
  have hucK : (uc.map dayTypeKey).Nodup := removeDuplicateDays_keys_nodup _
  have htlK : ((ul.take EXPECTED_LABS_PER_WEEK).map dayTypeKey).Nodup :=
    ((List.take_sublist _ _).map dayTypeKey).nodup hulK
  have htcK : ((uc.take EXPECTED_CLASSES_PER_WEEK).map dayTypeKey).Nodup :=
    ((List.take_sublist _ _).map dayTypeKey).nodup hucK
  have hallLab : ∀ x ∈ ul.take EXPECTED_LABS_PER_WEEK,
      (decide (x.sessionType = SessionType.Lab)) = true := by
    intro x hx
    simp [hfl g x (List.take_subset _ _ hx)]
  have hallCls : ∀ x ∈ uc.take EXPECTED_CLASSES_PER_WEEK,
      (decide (x.sessionType = SessionType.Class)) = true := by
    intro x hx
    simp [hfc g x (List.take_subset _ _ hx)]
  have hnoLab : ∀ x ∈ uc.take EXPECTED_CLASSES_PER_WEEK,
      ¬ (decide (x.sessionType = SessionType.Lab)) = true := by
    intro x hx
    simp [hfc g x (List.take_subset _ _ hx)]
  have hnoCls : ∀ x ∈ ul.take EXPECTED_LABS_PER_WEEK,
      ¬ (decide (x.sessionType = SessionType.Class)) = true := by
    intro x hx
    simp [hfl g x (List.take_subset _ _ hx)]
  split
  · -- lab-named course: one lab session is kept and is stable
    rw [List.filter_eq_self.mpr hallLab, removeDuplicateDays_of_nodup _ htlK,
      List.take_take, Nat.min_self]
  · -- regular course: two classes plus one lab are kept and are stable
    rw [List.filter_append, List.filter_append,
      List.filter_eq_self.mpr hallLab, List.filter_eq_self.mpr hallCls,
      List.filter_eq_nil_iff.mpr hnoLab, List.filter_eq_nil_iff.mpr hnoCls,
      List.nil_append, List.append_nil,
      removeDuplicateDays_of_nodup _ htlK, removeDuplicateDays_of_nodup _ htcK,
      List.take_take, Nat.min_self, List.take_take, Nat.min_self]

theorem flatten_filter_nonempty (blocks : List (String × List TimetableSession)) :
    ((blocks.filter (fun p => decide (p.2 ≠ []))).map Prod.snd).flatten =
      (blocks.map Prod.snd).flatten := by
  induction blocks with
  | nil => rfl
  | cons b bs ih =>
    rw [List.filter_cons]
    rcases eq_or_ne b.2 [] with hb | hb
    · rw [if_neg (by simp [hb]), List.map_cons, List.flatten_cons, hb,
        List.nil_append, ih]
    · rw [if_pos (by simp [hb]), List.map_cons, List.flatten_cons,
        List.map_cons, List.flatten_cons, ih]

/-- C9: `filterValidSessions` is idempotent — applying it to its own output
returns that output unchanged. -/
theorem filterValidSessions_idempotent (sessions : List TimetableSession) :
    filterValidSessions (filterValidSessions sessions) =
      filterValidSessions sessions := by
  set G := groupSessionsBy (fun s => s.courseName) sessions with hG
  set blocks := G.map (fun p => (p.1, keepForCourse p.1 p.2)) with hblocks
  have h1 : filterValidSessions sessions = (blocks.map Prod.snd).flatten := by
    rw [filterValidSessions, hblocks, List.map_map]
    rfl
  have hnames : (blocks.map Prod.fst).Nodup := by
    rw [hblocks, List.map_map]
    have : (Prod.fst ∘ fun p : String × List TimetableSession =>
        (p.1, keepForCourse p.1 p.2)) = Prod.fst := by
      funext p; rfl
    rw [this]
    exact groupSessionsBy_names_nodup _ sessions
  have hcontent : ∀ p ∈ blocks, ∀ x ∈ p.2, x.courseName = p.1 := by
    intro p hp x hx
    rw [hblocks] at hp
    rcases List.mem_map.mp hp with ⟨q, hq, hpq⟩
    subst hpq
    exact groupSessionsBy_content _ sessions q hq x (keepForCourse_subset q.1 q.2 x hx)
  have h2 : groupSessionsBy (fun s => s.courseName) ((blocks.map Prod.snd).flatten) =
      blocks.filter (fun p => decide (p.2 ≠ [])) := by
    have := foldl_insertGrouped_blocks (fun s => s.courseName) blocks [] hnames
      hcontent (by intro p _ hc; exact absurd hc (List.not_mem_nil _))
    rw [groupSessionsBy, this, List.nil_append]
  calc filterValidSessions (filterValidSessions sessions)
      = ((groupSessionsBy (fun s => s.courseName) ((blocks.map Prod.snd).flatten)).map
          (fun p => keepForCourse p.1 p.2)).flatten := by rw [h1]; rfl
    _ = ((blocks.filter (fun p => decide (p.2 ≠ []))).map
          (fun p => keepForCourse p.1 p.2)).flatten := by rw [h2]
    _ = ((blocks.filter (fun p => decide (p.2 ≠ []))).map Prod.snd).flatten := by
        congr 1
        refine List.map_congr_left ?_
        intro p hp
        have hp' : p ∈ blocks := List.mem_of_mem_filter hp
        rw [hblocks] at hp'
        rcases List.mem_map.mp hp' with ⟨q, _, hpq⟩
        subst hpq
        exact keepForCourse_idem q.1 q.2
    _ = (blocks.map Prod.snd).flatten := flatten_filter_nonempty blocks
    _ = filterValidSessions sessions := h1.symm

/-! ## Search lemmas -/

theorem buildOptions_error (cmap : CourseMap)
    (excluded : List (String × List String)) (c : String) :
    ∀ pre post, (∀ c' ∈ pre, availableSectionsIn cmap excluded c' ≠ []) →
      availableSectionsIn cmap excluded c = [] →
      buildOptions cmap excluded (pre ++ c :: post) = .error c := by
  intro pre
  induction pre with
  | nil =>
    intro post _ hc
    rw [List.nil_append, buildOptions]
    rw [if_pos hc]
  | cons p pre' ih =>
    intro post hpre hc
    rw [List.cons_append, buildOptions]
    rw [if_neg (hpre p (List.mem_cons_self _ _)),
      ih post (fun c' hc' => hpre c' (List.mem_cons_of_mem _ hc')) hc]

/-- C6: when a selected course is left without available sections after
exclusions, `findOptimalSchedule` fails immediately with empty schedule,
assignments and clash list, and a message naming the first such course. -/
theorem findOptimalSchedule_no_sections (allSessions : List TimetableSession)
    (selectedCourseNames pre post : List String) (c : String)
    (excludedAssignments : List (String × List String))
    (hsel : selectedCourseNames = pre ++ c :: post)
    (hpre : ∀ c' ∈ pre, availableSectionsIn
      (buildCourseMap allSessions selectedCourseNames) excludedAssignments c' ≠ [])
    (hc : availableSectionsIn (buildCourseMap allSessions selectedCourseNames)
      excludedAssignments c = []) :
    findOptimalSchedule allSessions selectedCourseNames excludedAssignments =
      ⟨false, [], [], [], noSectionsMessage c⟩ := by
  unfold findOptimalSchedule
  dsimp only
  rw [show buildOptions (buildCourseMap allSessions selectedCourseNames)
      excludedAssignments selectedCourseNames = .error c by
    rw [hsel] at hc hpre ⊢
    exact buildOptions_error _ _ c pre post hpre hc]

/-- Witness for C6: one selected course with no sessions at all. -/
theorem findOptimalSchedule_no_sections_witness :
    ((["Algo"] : List String) = [] ++ "Algo" :: [] ∧
      availableSectionsIn (buildCourseMap [] ["Algo"]) [] "Algo" = []) ∧
    findOptimalSchedule [] ["Algo"] [] =
      ⟨false, [], [], [], noSectionsMessage "Algo"⟩ :=
  ⟨⟨rfl, rfl⟩,
    findOptimalSchedule_no_sections [] ["Algo"] [] [] "Algo" [] rfl
      (fun c' hc' => absurd hc' (List.not_mem_nil c')) rfl⟩

theorem isBetterSchedule_le {r b : CombinationResult}
    (h : isBetterSchedule r b = true) : r.clashCount ≤ b.clashCount := by
  unfold isBetterSchedule at h
  split at h
  · omega
  · split at h
    · exact absurd h (by simp)
    · omega

theorem isBetterSchedule_ge {r b : CombinationResult}
    (h : isBetterSchedule r b = false) : b.clashCount ≤ r.clashCount := by
  unfold isBetterSchedule at h
  split at h
  · exact absurd h (by simp)
  · omega

theorem updateBest_some (r : CombinationResult) (best : Option CombinationResult) :
    ∃ v, updateBest (some r) best = some v ∧ v.clashCount ≤ r.clashCount ∧
      (updateBest (some r) best = best ∨ updateBest (some r) best = some r) := by
  cases best with
  | none => exact ⟨r, rfl, Nat.le_refl _, Or.inr rfl⟩
  | some b =>
    rw [updateBest]
    by_cases hbb : isBetterSchedule r b = true
    · rw [if_pos hbb]
      exact ⟨r, rfl, Nat.le_refl _, Or.inr rfl⟩
    · rw [if_neg hbb]
      exact ⟨b, rfl, isBetterSchedule_ge (Bool.eq_false_iff.mpr hbb),
        Or.inl rfl⟩

theorem updateBest_le_best (r : Option CombinationResult) (b : CombinationResult) :
    ∃ v, updateBest r (some b) = some v ∧ v.clashCount ≤ b.clashCount := by
  cases r with
  | none => exact ⟨b, rfl, Nat.le_refl _⟩
  | some rr =>
    rw [updateBest]
    by_cases hbb : isBetterSchedule rr b = true
    · rw [if_pos hbb]
      exact ⟨rr, rfl, isBetterSchedule_le hbb⟩
    · rw [if_neg hbb]
      exact ⟨b, rfl, Nat.le_refl _⟩

theorem pruneCond_zero {best : Option CombinationResult} {index : Nat}
    {sched : List TimetableSession} (h : pruneCond best index sched = true) :
    ∃ b, best = some b ∧ b.clashCount = 0 := by
  unfold pruneCond at h
  cases best with
  | none => exact absurd h (by simp)
  | some b =>
    rw [Bool.and_eq_true, decide_eq_true_eq, decide_eq_true_eq] at h
    exact ⟨b, rfl, h.1.1⟩

theorem sectionLoop_le (cmap : CourseMap) (cname : String) (index : Nat)
    (recurse : List (String × String) → List TimetableSession →
      Option CombinationResult → Option CombinationResult)
    (assigns : List (String × String)) (sched : List TimetableSession) :
    ∀ (secs : List String) (best : Option CombinationResult) (b : CombinationResult),
      best = some b →
      ∃ v, sectionLoop cmap cname index recurse assigns sched secs best = some v ∧
        v.clashCount ≤ b.clashCount := by
  intro secs
  induction secs with
  | nil =>
    intro best b hb
    exact ⟨b, by rw [sectionLoop, hb], Nat.le_refl _⟩
  | cons s more ih =>
    intro best b hb
    rw [sectionLoop]
    split
    · exact ih best b hb
    · subst hb
      rcases updateBest_le_best (recurse (setAssign assigns cname s)
        (sched ++ sessionsFor cmap cname s) (some b)) b with ⟨v', hv', hle'⟩
      rw [hv']
      rcases ih (some v') v' rfl with ⟨v, hv, hle⟩
      exact ⟨v, hv, Nat.le_trans hle hle'⟩

theorem sectionLoop_reaches (cmap : CourseMap) (cname : String) (index : Nat)
    (recurse : List (String × String) → List TimetableSession →
      Option CombinationResult → Option CombinationResult)
    (assigns : List (String × String)) (sched : List TimetableSession)
    (rest : List CourseOption)
    (HR2 : ∀ a s' b t, Extends cmap rest t →
      ∃ res, recurse a s' b = some res ∧
        res.clashCount ≤ (detectClashes (filterValidSessions (s' ++ t))).length) :
    ∀ (secs : List String) (best : Option CombinationResult) (s : String)
      (t : List TimetableSession), s ∈ secs → Extends cmap rest t →
      ∃ v, sectionLoop cmap cname index recurse assigns sched secs best = some v ∧
        v.clashCount ≤ (detectClashes (filterValidSessions
          (sched ++ sessionsFor cmap cname s ++ t))).length := by
  intro secs
  induction secs with
  | nil =>
    intro best s t hs _
    exact absurd hs (List.not_mem_nil _)
  | cons s0 more ih =>
    intro best s t hs hext
    rcases List.mem_cons.mp hs with hseq | hs'
    · subst hseq
      rw [sectionLoop]
      split
      · rename_i hprune
        rcases pruneCond_zero hprune with ⟨b, hb, hb0⟩
        rcases sectionLoop_le cmap cname index recurse assigns sched more best b hb
          with ⟨v, hv, hle⟩
        exact ⟨v, hv, by omega⟩
      · rcases HR2 (setAssign assigns cname s)
          (sched ++ sessionsFor cmap cname s) best t hext with ⟨res, hres, hresle⟩
        rw [hres]
        rcases updateBest_some res best with ⟨v', hv', hv'le, _⟩
        rw [hv']
        rcases sectionLoop_le cmap cname index recurse assigns sched more
          (some v') v' rfl with ⟨v, hv, hvle⟩
        exact ⟨v, hv, by omega⟩
    · rw [sectionLoop]
      split
      · exact ih best s t hs' hext
      · exact ih _ s t hs' hext

theorem sectionLoop_provenance (cmap : CourseMap) (cname : String) (index : Nat)
    (recurse : List (String × String) → List TimetableSession →
      Option CombinationResult → Option CombinationResult)
    (assigns : List (String × String)) (sched : List TimetableSession)
    (rest : List CourseOption)
    (HR3 : ∀ a s' b res, recurse a s' b = some res →
      b = some res ∨ ∃ a' t, Extends cmap rest t ∧ res = leafResult a' (s' ++ t)) :
    ∀ (secs : List String) (best : Option CombinationResult) (v : CombinationResult),
      sectionLoop cmap cname index recurse assigns sched secs best = some v →
      best = some v ∨ ∃ s t a', s ∈ secs ∧ Extends cmap rest t ∧
        v = leafResult a' (sched ++ sessionsFor cmap cname s ++ t) := by
  intro secs
  induction secs with
  | nil =>
    intro best v h
    rw [sectionLoop] at h
    exact Or.inl h
  | cons s0 more ih =>
    intro best v h
    rw [sectionLoop] at h
    split at h
    · rcases ih best v h with h' | ⟨s, t, a', hs, hext, hv⟩
      · exact Or.inl h'
      · exact Or.inr ⟨s, t, a', List.mem_cons_of_mem _ hs, hext, hv⟩
    · rcases ih _ v h with h' | ⟨s, t, a', hs, hext, hv⟩
      · cases hR : recurse (setAssign assigns cname s0)
          (sched ++ sessionsFor cmap cname s0) best with
        | none =>
          rw [hR] at h'
          exact Or.inl h'
        | some res =>
          rw [hR] at h'
          rcases updateBest_some res best with ⟨v', _, _, hor⟩
          rcases hor with hor | hor
          · rw [h'] at hor
            exact Or.inl hor.symm
          · rw [h'] at hor
            have hvres : v = res := Option.some.inj hor
            rcases HR3 _ _ _ res hR with hb | ⟨a', t, hext, hres⟩
            · rw [hvres]
              exact Or.inl hb
            · exact Or.inr ⟨s0, t, a', List.mem_cons_self _ _, hext,
                hvres ▸ hres⟩
      · exact Or.inr ⟨s, t, a', List.mem_cons_of_mem _ hs, hext, hv⟩

theorem extends_cons_inv {cmap : CourseMap} {opt : CourseOption}
    {rest : List CourseOption} {t : List TimetableSession}
    (h : Extends cmap (opt :: rest) t) :
    ∃ s t', s ∈ opt.sections ∧ Extends cmap rest t' ∧
      t = sessionsFor cmap opt.courseName s ++ t' := by
  cases h with
  | cons hs hext => exact ⟨_, _, hs, hext, rfl⟩

theorem extends_exists (cmap : CourseMap) :
    ∀ opts : List CourseOption, (∀ o ∈ opts, o.sections ≠ []) →
      ∃ t, Extends cmap opts t := by
  intro opts
  induction opts with
  | nil => exact fun _ => ⟨[], Extends.nil⟩
  | cons opt rest ih =>
    intro h
    rcases ih (fun o ho => h o (List.mem_cons_of_mem _ ho)) with ⟨t, ht⟩
    rcases hsec : opt.sections with _ | ⟨s, more⟩
    · exact absurd hsec (h opt (List.mem_cons_self _ _))
    · exact ⟨_, Extends.cons (by rw [hsec]; exact List.mem_cons_self s more) ht⟩

theorem findBestCombination_reaches (cmap : CourseMap) :
    ∀ (opts : List CourseOption) (index : Nat) (assigns : List (String × String))
      (sched : List TimetableSession) (best : Option CombinationResult)
      (t : List TimetableSession), Extends cmap opts t →
      ∃ res, findBestCombination cmap opts index assigns sched best = some res ∧
        res.clashCount ≤
          (detectClashes (filterValidSessions (sched ++ t))).length := by
  intro opts
  induction opts with
  | nil =>
    intro index assigns sched best t hext
    cases hext
    refine ⟨leafResult assigns sched, by rw [findBestCombination], ?_⟩
    rw [List.append_nil]
    exact Nat.le_of_eq rfl
  | cons opt rest ih =>
    intro index assigns sched best t hext
    obtain ⟨s, t', hs, hext', rfl⟩ := extends_cons_inv hext
    rw [findBestCombination]
    rcases sectionLoop_reaches cmap opt.courseName index
        (fun a s' b => findBestCombination cmap rest (index + 1) a s' b)
        assigns sched rest
        (fun a s' b t'' hext'' => ih (index + 1) a s' b t'' hext'')
        opt.sections best s t' hs hext' with ⟨v, hv, hle⟩
    refine ⟨v, hv, ?_⟩
    rw [List.append_assoc] at hle
    exact hle

theorem findBestCombination_provenance (cmap : CourseMap) :
    ∀ (opts : List CourseOption) (index : Nat) (assigns : List (String × String))
      (sched : List TimetableSession) (best : Option CombinationResult)
      (res : CombinationResult),
      findBestCombination cmap opts index assigns sched best = some res →
      best = some res ∨ ∃ a t, Extends cmap opts t ∧
        res = leafResult a (sched ++ t) := by
  intro opts
  induction opts with
  | nil =>
    intro index assigns sched best res h
    rw [findBestCombination] at h
    refine Or.inr ⟨assigns, [], Extends.nil, ?_⟩
    rw [List.append_nil]
    exact (Option.some.inj h).symm
  | cons opt rest ih =>
    intro index assigns sched best res h
    rw [findBestCombination] at h
    rcases sectionLoop_provenance cmap opt.courseName index
        (fun a s' b => findBestCombination cmap rest (index + 1) a s' b)
        assigns sched rest
        (fun a s' b res' h' => ih (index + 1) a s' b res' h')
        opt.sections best res h with h' | ⟨s, t', a', hs, hext', hres⟩
    · exact Or.inl h'
    · refine Or.inr ⟨a', sessionsFor cmap opt.courseName s ++ t',
        Extends.cons hs hext', ?_⟩
      rw [hres, List.append_assoc]

theorem buildOptions_ok (cmap : CourseMap)
    (excluded : List (String × List String)) :
    ∀ selected : List String,
      (∀ c ∈ selected, availableSectionsIn cmap excluded c ≠ []) →
      buildOptions cmap excluded selected =
        .ok (selected.map (fun c =>
          ⟨c, availableSectionsIn cmap excluded c⟩)) := by
  intro selected
  induction selected with
  | nil => intro _; rfl
  | cons c rest ih =>
    intro h
    rw [buildOptions]
    rw [if_neg (h c (List.mem_cons_self _ _)),
      ih (fun c' hc' => h c' (List.mem_cons_of_mem _ hc'))]
    rfl

/-- C1: under exclusions leaving every selected course at least one section,
`findOptimalSchedule` returns a schedule whose clash count is exactly the
minimum clash count over all choices of one available section per selected
course (the returned schedule is the normalization of one such choice and no
choice normalizes to fewer clashes); `success` holds exactly when that
minimum is 0, and on failure the `clashes` field is `detectClashes` of the
returned schedule. -/
theorem findOptimalSchedule_minimizes_clashes
    (allSessions : List TimetableSession) (selectedCourseNames : List String)
    (excludedAssignments : List (String × List String))
    (h : ∀ c ∈ selectedCourseNames,
      availableSectionsIn (buildCourseMap allSessions selectedCourseNames)
        excludedAssignments c ≠ []) :
    (∃ t, Extends (buildCourseMap allSessions selectedCourseNames)
        (selectedOptions allSessions selectedCourseNames excludedAssignments) t ∧
      (findOptimalSchedule allSessions selectedCourseNames
        excludedAssignments).schedule = filterValidSessions t) ∧
    (∀ t, Extends (buildCourseMap allSessions selectedCourseNames)
        (selectedOptions allSessions selectedCourseNames excludedAssignments) t →
      (detectClashes (findOptimalSchedule allSessions selectedCourseNames
        excludedAssignments).schedule).length ≤
        (detectClashes (filterValidSessions t)).length) ∧
    ((findOptimalSchedule allSessions selectedCourseNames
        excludedAssignments).success = true ↔
      (detectClashes (findOptimalSchedule allSessions selectedCourseNames
        excludedAssignments).schedule).length = 0) ∧
    ((detectClashes (findOptimalSchedule allSessions selectedCourseNames
        excludedAssignments).schedule).length ≠ 0 →
      (findOptimalSchedule allSessions selectedCourseNames
        excludedAssignments).clashes =
        detectClashes (findOptimalSchedule allSessions selectedCourseNames
          excludedAssignments).schedule) := by
  have hopts : buildOptions (buildCourseMap allSessions selectedCourseNames)
      excludedAssignments selectedCourseNames =
      Except.ok (selectedOptions allSessions selectedCourseNames
        excludedAssignments) := by
    unfold selectedOptions
    exact buildOptions_ok _ _ _ h
  have hne : ∀ o ∈ selectedOptions allSessions selectedCourseNames
      excludedAssignments, o.sections ≠ [] := by
    intro o ho
    unfold selectedOptions at ho
    rcases List.mem_map.mp ho with ⟨c, hc, rfl⟩
    exact h c hc
  obtain ⟨t0, ht0⟩ := extends_exists _ _ hne
  obtain ⟨res, hres, _⟩ := findBestCombination_reaches
    (buildCourseMap allSessions selectedCourseNames)
    (selectedOptions allSessions selectedCourseNames excludedAssignments)
    0 [] [] none t0 ht0
  rcases findBestCombination_provenance _ _ 0 [] [] none res hres with
    hbad | ⟨a, t1, hext1, hres_eq⟩
  · exact absurd hbad (by simp)
  have hres_clash : res.clashCount = (detectClashes res.schedule).length := by
    rw [hres_eq]
    rfl
  have hsched_eq : res.schedule = filterValidSessions t1 := by
    rw [hres_eq]
    show filterValidSessions ([] ++ t1) = filterValidSessions t1
    rw [List.nil_append]
  have hmin : ∀ t, Extends (buildCourseMap allSessions selectedCourseNames)
      (selectedOptions allSessions selectedCourseNames excludedAssignments) t →
      res.clashCount ≤ (detectClashes (filterValidSessions t)).length := by
    intro t ht
    obtain ⟨res', hres', hle'⟩ := findBestCombination_reaches _ _ 0 [] [] none t ht
    rw [hres] at hres'
    rw [Option.some.inj hres']
    rw [List.nil_append] at hle'
    exact hle'
  have hr : findOptimalSchedule allSessions selectedCourseNames
      excludedAssignments =
      (if res.clashCount = 0 then
        ⟨true, res.schedule, res.assignments, [],
          "Found a clash-free schedule!" ++
            (if res.gapScore > 0 then
              " Total gaps between classes: " ++ gapDisplay res.gapScore ++ "."
            else " No gaps between classes!")⟩
      else
        ⟨false, res.schedule, res.assignments, detectClashes res.schedule,
          "Could not find a clash-free schedule. Minimum clashes: " ++
            toString res.clashCount ++
            ". You may need to drop some courses or accept the clashes."⟩) := by
    unfold findOptimalSchedule
    dsimp only
    rw [hopts]
    dsimp only
    rw [hres]
  by_cases h0 : res.clashCount = 0
  · rw [if_pos h0] at hr
    refine ⟨⟨t1, hext1, ?_⟩, ?_, ?_, ?_⟩
    · rw [hr]
      exact hsched_eq
    · intro t ht
      rw [hr]
      show (detectClashes res.schedule).length ≤ _
      rw [← hres_clash]
      exact hmin t ht
    · rw [hr]
      show (true = true) ↔ (detectClashes res.schedule).length = 0
      rw [← hres_clash]
      simp [h0]
    · rw [hr]
      show (detectClashes res.schedule).length ≠ 0 → _
      rw [← hres_clash]
      intro hcontra
      exact absurd h0 hcontra
  · rw [if_neg h0] at hr
    refine ⟨⟨t1, hext1, ?_⟩, ?_, ?_, ?_⟩
    · rw [hr]
      exact hsched_eq
    · intro t ht
      rw [hr]
      show (detectClashes res.schedule).length ≤ _
      rw [← hres_clash]
      exact hmin t ht
    · rw [hr]
      show (false = true) ↔ (detectClashes res.schedule).length = 0
      rw [← hres_clash]
      simp [h0]
    · rw [hr]
      intro _
      rfl

/-- Witness for C1 on a one-course, one-section instance. -/
theorem findOptimalSchedule_minimizes_clashes_witness :
    (∀ c ∈ (["Algo"] : List String),
      availableSectionsIn (buildCourseMap [sampleSession] ["Algo"]) [] c ≠ []) ∧
    ((∃ t, Extends (buildCourseMap [sampleSession] ["Algo"])
        (selectedOptions [sampleSession] ["Algo"] []) t ∧
      (findOptimalSchedule [sampleSession] ["Algo"] []).schedule =
        filterValidSessions t) ∧
    (∀ t, Extends (buildCourseMap [sampleSession] ["Algo"])
        (selectedOptions [sampleSession] ["Algo"] []) t →
      (detectClashes (findOptimalSchedule [sampleSession] ["Algo"]
        []).schedule).length ≤ (detectClashes (filterValidSessions t)).length) ∧
    ((findOptimalSchedule [sampleSession] ["Algo"] []).success = true ↔
      (detectClashes (findOptimalSchedule [sampleSession] ["Algo"]
        []).schedule).length = 0) ∧
    ((detectClashes (findOptimalSchedule [sampleSession] ["Algo"]
        []).schedule).length ≠ 0 →
      (findOptimalSchedule [sampleSession] ["Algo"] []).clashes =
        detectClashes (findOptimalSchedule [sampleSession] ["Algo"]
          []).schedule)) := by
  have hh : ∀ c ∈ (["Algo"] : List String),
      availableSectionsIn (buildCourseMap [sampleSession] ["Algo"]) [] c ≠ [] := by
    intro c hc
    simp only [List.mem_singleton] at hc
    subst hc
    decide
  exact ⟨hh, findOptimalSchedule_minimizes_clashes [sampleSession] ["Algo"] [] hh⟩

end ClashesDetector
